import Mathlib

/-!
Verification of the conversation-cache and token-quota subsystem of the
road-core service.

Python strings are embedded as lists of characters (`Str`), Python dicts as
association lists with unique keys (insertion order preserved, as in
Python), and the in-memory recency `deque` as a list whose head is the
most-recently-used end (`appendleft` is `cons`, `pop` removes the last
element, `remove` is `List.erase`).

The identifier validator `check_suid` (ols/utils/suid.py) and the
configuration model (ols/app/models/config.py) are not part of the source
tree; they are modelled from the spec and marked as such.  Everything else
is translated from the Python sources under src/.

Where a Python call site passes a different number of positional arguments
than the called function declares (this happens in the sources, see the
`call` functions below), the call is embedded through an explicit
argument-list function so that the resulting `TypeError` is visible in the
model.
-/

namespace RoadCore

/-- Strings are modelled as lists of characters. -/
abbrev Str := List Char

/-- Separator between the parts of a compound cache key
(cache.py, `COMPOUND_KEY_SEPARATOR = ":"`). -/
def keySep : Char := ':'

/-- Characters allowed in a UUID-like identifier: hex digits and dashes. -/
def isSuidChar (c : Char) : Bool :=
  c.isDigit || (('a' ≤ c) && (c ≤ 'f')) || (('A' ≤ c) && (c ≤ 'F')) || (c = '-')

/-- Modelled from the spec: `check_suid` (ols/utils/suid.py, not under src/)
is the injected identifier-format validator.  Per the spec an identifier is
UUID-like (hex digits and dashes), nonempty; in particular the compound key
separator character can never occur inside a valid identifier (spec section
3: "the separator character must never appear inside either component"). -/
def check_suid (s : Str) : Bool :=
  (!s.isEmpty) && s.all isSuidChar

/-- A valid identifier never contains the separator character. -/
theorem sep_not_mem_of_check_suid {s : Str} (h : check_suid s = true) :
    keySep ∉ s := by
  intro hmem
  have hall := (Bool.and_eq_true _ _).mp h |>.2
  have := List.all_eq_true.mp hall keySep hmem
  simp [isSuidChar, keySep] at this

/-- Dynamically-typed Python values, as far as the embedded call sites
need them. -/
inductive PyVal where
  | str (s : Str)
  | int (n : Int)
  | pybool (b : Bool)
deriving DecidableEq

/-- Exceptions raised by the embedded code. -/
inductive PyError where
  | typeError
  | valueError
  | indexError
  | configurationError
deriving DecidableEq

/-- Removal of the first occurrence of an element from a list of strings:
`deque.remove(key)` and `list.remove` in Python semantics (defined by
recursion to keep the development independent of `BEq` instances). -/
def eraseStr : List Str → Str → List Str
  | [], _ => []
  | a :: rest, k => if a = k then rest else a :: eraseStr rest k

theorem eraseStr_nil (k : Str) : eraseStr [] k = [] := rfl

theorem eraseStr_cons (a : Str) (l : List Str) (k : Str) :
    eraseStr (a :: l) k = if a = k then l else a :: eraseStr l k := rfl

theorem eraseStr_sublist (l : List Str) (k : Str) : List.Sublist (eraseStr l k) l := by
  induction l with
  | nil => exact List.Sublist.refl _
  | cons a rest ih =>
    rw [eraseStr_cons]
    by_cases ha : a = k
    · rw [if_pos ha]
      exact (List.sublist_cons_self a rest)
    · rw [if_neg ha]
      exact ih.cons₂ a

theorem mem_of_mem_eraseStr {l : List Str} {k a : Str} (h : a ∈ eraseStr l k) :
    a ∈ l :=
  (eraseStr_sublist l k).subset h

theorem length_eraseStr_le (l : List Str) (k : Str) :
    (eraseStr l k).length ≤ l.length :=
  (eraseStr_sublist l k).length_le

theorem nodup_eraseStr {l : List Str} (k : Str) (h : l.Nodup) :
    (eraseStr l k).Nodup :=
  h.sublist (eraseStr_sublist l k)

theorem eraseStr_of_not_mem {l : List Str} {k : Str} (h : k ∉ l) :
    eraseStr l k = l := by
  induction l with
  | nil => rfl
  | cons a rest ih =>
    rw [List.mem_cons] at h
    push_neg at h
    rw [eraseStr_cons, if_neg (fun he => h.1 he.symm), ih h.2]

theorem not_mem_eraseStr_self {l : List Str} {k : Str} (h : l.Nodup) :
    k ∉ eraseStr l k := by
  induction l with
  | nil => simp [eraseStr_nil]
  | cons a rest ih =>
    rw [eraseStr_cons]
    by_cases ha : a = k
    · rw [if_pos ha]
      intro hmem
      exact (List.nodup_cons.mp h).1 (ha ▸ hmem)
    · rw [if_neg ha]
      intro hmem
      rcases List.mem_cons.mp hmem with he | hm
      · exact ha he.symm
      · exact ih (List.nodup_cons.mp h).2 hm

theorem mem_eraseStr_of_ne {l : List Str} {k a : Str} (h : a ≠ k) :
    a ∈ eraseStr l k ↔ a ∈ l := by
  induction l with
  | nil => simp [eraseStr_nil]
  | cons b rest ih =>
    rw [eraseStr_cons]
    by_cases hb : b = k
    · rw [if_pos hb, List.mem_cons]
      constructor
      · exact fun hm => Or.inr hm
      · rintro (he | hm)
        · exact absurd (he.trans hb) h
        · exact hm
    · rw [if_neg hb, List.mem_cons, List.mem_cons, ih]

theorem perm_cons_eraseStr {l : List Str} {k : Str} (h : k ∈ l) :
    l.Perm (k :: eraseStr l k) := by
  induction l with
  | nil => simp at h
  | cons a rest ih =>
    rw [eraseStr_cons]
    by_cases ha : a = k
    · rw [if_pos ha, ha]
    · rw [if_neg ha]
      have hk : k ∈ rest := by
        rcases List.mem_cons.mp h with he | hm
        · exact absurd he.symm ha
        · exact hm
      exact ((ih hk).cons a).trans (List.Perm.swap k a _)

theorem perm_eraseStr {l1 l2 : List Str} (k : Str) (p : l1.Perm l2) :
    (eraseStr l1 k).Perm (eraseStr l2 k) := by
  by_cases h1 : k ∈ l1
  · have h2 : k ∈ l2 := p.mem_iff.mp h1
    exact ((perm_cons_eraseStr h1).symm.trans (p.trans (perm_cons_eraseStr h2))).cons_inv
  · have h2 : k ∉ l2 := fun hm => h1 (p.mem_iff.mpr hm)
    rw [eraseStr_of_not_mem h1, eraseStr_of_not_mem h2]
    exact p

theorem eraseStr_append_right {l1 : List Str} (l2 : List Str) {k : Str}
    (h : k ∉ l1) : eraseStr (l1 ++ l2) k = l1 ++ eraseStr l2 k := by
  induction l1 with
  | nil => rfl
  | cons a rest ih =>
    rw [List.mem_cons] at h
    push_neg at h
    rw [List.cons_append, eraseStr_cons, if_neg (fun he => h.1 he.symm),
      ih h.2, List.cons_append]

theorem length_eraseStr_of_mem {l : List Str} {k : Str} (h : k ∈ l) :
    (eraseStr l k).length + 1 = l.length := by
  induction l with
  | nil => simp at h
  | cons a rest ih =>
    rw [eraseStr_cons]
    by_cases ha : a = k
    · rw [if_pos ha, List.length_cons]
    · have hk : k ∈ rest := by
        rcases List.mem_cons.mp h with he | hm
        · exact absurd he.symm ha
        · exact hm
      rw [if_neg ha, List.length_cons, List.length_cons, ih hk]

/-! ## Python dict, embedded as an association list

Insertion of a fresh key appends at the end (Python dicts preserve
insertion order), assignment to a present key updates in place, and `del`
removes the entry. -/

/-- Lookup in a dict (`d[k]` / `k in d`). -/
def dictGet {α : Type} (d : List (Str × α)) (k : Str) : Option α :=
  match d with
  | [] => none
  | (k2, v) :: rest => if k2 = k then some v else dictGet rest k

/-- Assignment `d[k] = v`: updates in place if present, appends if fresh. -/
def dictSet {α : Type} (d : List (Str × α)) (k : Str) (v : α) : List (Str × α) :=
  match d with
  | [] => [(k, v)]
  | (k2, v2) :: rest =>
      if k2 = k then (k2, v) :: rest else (k2, v2) :: dictSet rest k v

/-- Deletion `del d[k]`: removes the entry with key `k`. -/
def dictDel {α : Type} (d : List (Str × α)) (k : Str) : List (Str × α) :=
  match d with
  | [] => []
  | (k2, v2) :: rest => if k2 = k then rest else (k2, v2) :: dictDel rest k

/-- Keys of a dict, in insertion order. -/
def dictKeys {α : Type} (d : List (Str × α)) : List Str :=
  d.map Prod.fst

theorem dictKeys_nil {α : Type} : dictKeys ([] : List (Str × α)) = [] := rfl

theorem dictKeys_cons {α : Type} (p : Str × α) (d : List (Str × α)) :
    dictKeys (p :: d) = p.1 :: dictKeys d := rfl

theorem dictGet_cons {α : Type} (k2 : Str) (v : α) (d : List (Str × α)) (k : Str) :
    dictGet ((k2, v) :: d) k = if k2 = k then some v else dictGet d k := rfl

theorem dictSet_cons {α : Type} (k2 : Str) (v2 : α) (d : List (Str × α)) (k : Str) (v : α) :
    dictSet ((k2, v2) :: d) k v =
      if k2 = k then (k2, v) :: d else (k2, v2) :: dictSet d k v := rfl

theorem dictDel_cons {α : Type} (k2 : Str) (v2 : α) (d : List (Str × α)) (k : Str) :
    dictDel ((k2, v2) :: d) k = if k2 = k then d else (k2, v2) :: dictDel d k := rfl

theorem dictGet_isSome_iff_mem {α : Type} (d : List (Str × α)) (k : Str) :
    (dictGet d k).isSome ↔ k ∈ dictKeys d := by
  induction d with
  | nil => simp only [dictGet, dictKeys_nil, Option.isSome_none, List.not_mem_nil,
      Bool.false_eq_true, iff_false, not_false_eq_true]
  | cons p rest ih =>
    obtain ⟨k2, v⟩ := p
    rw [dictGet_cons, dictKeys_cons, List.mem_cons]
    by_cases hk : k2 = k
    · subst hk
      rw [if_pos rfl]
      simp only [Option.isSome_some, true_iff]
      exact Or.inl trivial
    · rw [if_neg hk, ih]
      constructor
      · exact fun h => Or.inr h
      · rintro (h | h)
        · exact absurd h.symm hk
        · exact h

theorem dictGet_eq_none_iff_not_mem {α : Type} (d : List (Str × α)) (k : Str) :
    dictGet d k = none ↔ k ∉ dictKeys d := by
  rw [← dictGet_isSome_iff_mem]
  cases dictGet d k <;> simp

theorem dictKeys_dictSet_of_mem {α : Type} (d : List (Str × α)) (k : Str) (v : α)
    (h : k ∈ dictKeys d) : dictKeys (dictSet d k v) = dictKeys d := by
  induction d with
  | nil => simp [dictKeys_nil] at h
  | cons p rest ih =>
    obtain ⟨k2, v2⟩ := p
    rw [dictSet_cons]
    by_cases hk : k2 = k
    · rw [if_pos hk, dictKeys_cons, dictKeys_cons]
    · rw [if_neg hk, dictKeys_cons, dictKeys_cons]
      rw [dictKeys_cons, List.mem_cons] at h
      rcases h with h | h
      · exact absurd h.symm hk
      · rw [ih h]

theorem dictKeys_dictSet_of_not_mem {α : Type} (d : List (Str × α)) (k : Str) (v : α)
    (h : k ∉ dictKeys d) : dictKeys (dictSet d k v) = dictKeys d ++ [k] := by
  induction d with
  | nil => rfl
  | cons p rest ih =>
    obtain ⟨k2, v2⟩ := p
    rw [dictKeys_cons, List.mem_cons] at h
    push_neg at h
    rw [dictSet_cons, if_neg (fun he => h.1 he.symm), dictKeys_cons, ih h.2,
      dictKeys_cons, List.cons_append]

theorem dictKeys_dictDel {α : Type} (d : List (Str × α)) (k : Str) :
    dictKeys (dictDel d k) = eraseStr (dictKeys d) k := by
  induction d with
  | nil => rfl
  | cons p rest ih =>
    obtain ⟨k2, v2⟩ := p
    rw [dictDel_cons, dictKeys_cons]
    by_cases hk : k2 = k
    · subst hk
      rw [if_pos rfl, eraseStr_cons, if_pos rfl]
    · rw [if_neg hk, dictKeys_cons, ih, eraseStr_cons, if_neg hk]

theorem dictGet_dictSet_self {α : Type} (d : List (Str × α)) (k : Str) (v : α) :
    dictGet (dictSet d k v) k = some v := by
  induction d with
  | nil => simp [dictSet, dictGet]
  | cons p rest ih =>
    obtain ⟨k2, v2⟩ := p
    rw [dictSet_cons]
    by_cases hk : k2 = k
    · rw [if_pos hk, dictGet_cons, if_pos hk]
    · rw [if_neg hk, dictGet_cons, if_neg hk, ih]

theorem dictGet_dictSet_ne {α : Type} (d : List (Str × α)) (k k2 : Str) (v : α)
    (h : k ≠ k2) : dictGet (dictSet d k v) k2 = dictGet d k2 := by
  induction d with
  | nil => simp [dictSet, dictGet, h]
  | cons p rest ih =>
    obtain ⟨k3, v3⟩ := p
    rw [dictSet_cons]
    by_cases hk : k3 = k
    · subst hk
      rw [if_pos rfl, dictGet_cons, dictGet_cons, if_neg h, if_neg h]
    · rw [if_neg hk, dictGet_cons, dictGet_cons]
      by_cases hk2 : k3 = k2
      · rw [if_pos hk2, if_pos hk2]
      · rw [if_neg hk2, if_neg hk2, ih]

theorem dictGet_dictDel_ne {α : Type} (d : List (Str × α)) (k k2 : Str)
    (h : k ≠ k2) : dictGet (dictDel d k) k2 = dictGet d k2 := by
  induction d with
  | nil => rfl
  | cons p rest ih =>
    obtain ⟨k3, v3⟩ := p
    rw [dictDel_cons]
    by_cases hk : k3 = k
    · subst hk
      rw [if_pos rfl, dictGet_cons, if_neg h]
    · rw [if_neg hk, dictGet_cons, dictGet_cons]
      by_cases hk2 : k3 = k2
      · rw [if_pos hk2, if_pos hk2]
      · rw [if_neg hk2, if_neg hk2, ih]

theorem length_dictSet_of_mem {α : Type} (d : List (Str × α)) (k : Str) (v : α)
    (h : k ∈ dictKeys d) : (dictSet d k v).length = d.length := by
  have h1 : (dictKeys (dictSet d k v)).length = (dictKeys d).length := by
    rw [dictKeys_dictSet_of_mem d k v h]
  simpa [dictKeys] using h1

theorem length_dictSet_of_not_mem {α : Type} (d : List (Str × α)) (k : Str) (v : α)
    (h : k ∉ dictKeys d) : (dictSet d k v).length = d.length + 1 := by
  have h1 : (dictKeys (dictSet d k v)).length = (dictKeys d).length + 1 := by
    rw [dictKeys_dictSet_of_not_mem d k v h, List.length_append, List.length_singleton]
  simpa [dictKeys] using h1

/-! ## Key construction (src/ols/src/cache/cache.py)

The static helpers of the abstract `Cache` class.  Note that in cache.py
these declare no `skip_user_id_check` parameter, although every backend
passes one; the positional-call layer below makes the resulting
`TypeError` visible. -/

/-- Embedding of the body of `Cache._check_user_id(user_id)` (cache.py
lines 22-26): raises `ValueError` when `check_suid` fails. -/
def check_user_id (user_id : Str) : Except PyError Unit :=
  if check_suid user_id then .ok () else .error .valueError

/-- Embedding of the body of `Cache._check_conversation_id(conversation_id)`
(cache.py lines 28-32). -/
def check_conversation_id (conversation_id : Str) : Except PyError Unit :=
  if check_suid conversation_id then .ok () else .error .valueError

/-- Embedding of the body of `Cache.construct_key(user_id, conversation_id)`
(cache.py lines 34-39): validates both identifiers, then concatenates them
around the separator. -/
def construct_key (user_id conversation_id : Str) : Except PyError Str :=
  match check_user_id user_id with
  | .error e => .error e
  | .ok _ =>
    match check_conversation_id conversation_id with
    | .error e => .error e
    | .ok _ => .ok (user_id ++ keySep :: conversation_id)

/-- The compound key for a valid pair: the value `construct_key` returns
when both identifiers pass validation. -/
def mkKey (user_id conversation_id : Str) : Str :=
  user_id ++ keySep :: conversation_id

theorem construct_key_eq_mkKey {u c : Str} (hu : check_suid u = true)
    (hc : check_suid c = true) : construct_key u c = .ok (mkKey u c) := by
  simp [construct_key, check_user_id, check_conversation_id, hu, hc, mkKey]

/-- Python positional-call semantics for the static method
`Cache.construct_key`: the declaration in cache.py accepts exactly two
positional parameters and no defaults, while every backend invokes it as
`super().construct_key(user_id, conversation_id, skip_user_id_check)` with
three positional arguments; a call with any other shape raises
`TypeError`. -/
def construct_key_call (args : List PyVal) : Except PyError Str :=
  match args with
  | [.str u, .str c] => construct_key u c
  | _ => .error .typeError

/-- Python positional-call semantics for `Cache._check_user_id`, which
declares exactly one parameter; the `list` implementations invoke it with
two positional arguments. -/
def check_user_id_call (args : List PyVal) : Except PyError Unit :=
  match args with
  | [.str u] => check_user_id u
  | _ => .error .typeError

/-- Keys of distinct valid users occupy disjoint namespaces: the compound
key of `(u2, c)` extends the listing prefix of `u1` exactly when
`u1 = u2`, because the separator cannot occur inside a valid user id. -/
theorem prefix_key_iff {u1 u2 c : Str} (h1 : keySep ∉ u1) (h2 : keySep ∉ u2) :
    (u1 ++ [keySep]) <+: (u2 ++ keySep :: c) ↔ u1 = u2 := by
  induction u1 generalizing u2 with
  | nil =>
    cases u2 with
    | nil => simp
    | cons b u2t =>
      have hb : keySep ≠ b := fun he => h2 (he ▸ List.mem_cons_self b u2t)
      simp only [List.nil_append, List.cons_append, List.cons_prefix_cons]
      constructor
      · rintro ⟨he, -⟩
        exact absurd he hb
      · intro he
        exact absurd he (by simp)
  | cons a u1t ih =>
    have ha : a ≠ keySep := fun he => h1 (he ▸ List.mem_cons_self a u1t)
    cases u2 with
    | nil =>
      simp only [List.cons_append, List.nil_append, List.cons_prefix_cons]
      constructor
      · rintro ⟨he, -⟩
        exact absurd he ha
      · intro he
        exact absurd he (by simp)
    | cons b u2t =>
      have h1t : keySep ∉ u1t := fun hm => h1 (List.mem_cons_of_mem a hm)
      have h2t : keySep ∉ u2t := fun hm => h2 (List.mem_cons_of_mem b hm)
      simp only [List.cons_append, List.cons_prefix_cons, ih h1t h2t,
        List.cons.injEq]

/-! ## In-memory LRU cache (src/ols/src/cache/in_memory_cache.py) -/

/-- State of `InMemoryCache`: the capacity fixed by `initialize_cache`, the
recency deque (head = most-recently-used end; `appendleft` pushes at the
head, `pop` removes at the tail) and the key-to-entries dict.  Stored
entries are kept abstract in the type parameter `E`; conversion through
`CacheEntry.to_dict`/`from_dict` is modelled as the identity on the stored
data. -/
structure InMemoryCache (E : Type) where
  capacity : Int
  deque : List Str
  cache : List (Str × List E)
deriving DecidableEq

/-- Body of `InMemoryCache.get` after key construction (in_memory_cache.py
lines 53-59): a miss returns `None`; a hit moves the key to the
most-recently-used end of the deque and returns a copy of the stored
entries. -/
def get_key {E : Type} (s : InMemoryCache E) (key : Str) :
    Option (List E) × InMemoryCache E :=
  match dictGet s.cache key with
  | none => (none, s)
  | some value => (some value, { s with deque := key :: eraseStr s.deque key })

/-- Body of `InMemoryCache.insert_or_append` after key construction (lines
79-90): a new key, with the store at capacity, first evicts the
least-recently-used key (`deque.pop()` removes the tail; `pop` on an empty
deque raises `IndexError`); an existing key gets the value appended.  In
both cases the key finally moves to the head of the deque. -/
def insert_or_append_key {E : Type} (s : InMemoryCache E) (key : Str) (value : E) :
    Except PyError (InMemoryCache E) :=
  match dictGet s.cache key with
  | none =>
      if (s.deque.length : Int) = s.capacity then
        match s.deque.getLast? with
        | none => .error .indexError
        | some oldest =>
            .ok { s with
              deque := key :: s.deque.dropLast,
              cache := dictSet (dictDel s.cache oldest) key [value] }
      else
        .ok { s with deque := key :: s.deque, cache := dictSet s.cache key [value] }
  | some old_value =>
      .ok { s with
        deque := key :: eraseStr s.deque key,
        cache := dictSet s.cache key (old_value ++ [value]) }

/-- Body of `InMemoryCache.delete` after key construction (lines 105-112):
removes the conversation from both the dict and the deque, reporting
whether it was present. -/
def delete_key {E : Type} (s : InMemoryCache E) (key : Str) :
    Bool × InMemoryCache E :=
  match dictGet s.cache key with
  | none => (false, s)
  | some _ =>
      (true, { s with cache := dictDel s.cache key, deque := eraseStr s.deque key })

/-- Body of `InMemoryCache.list` after the user-id check (lines 126-135):
collect, in dict insertion order, the conversation id of every key that
starts with the user's prefix (the id is the key with the prefix sliced
off). -/
def list_user {E : Type} (s : InMemoryCache E) (user_id : Str) : List Str :=
  (dictKeys s.cache).filterMap fun key =>
    if (user_id ++ [keySep]).isPrefixOf key then
      some (key.drop (user_id ++ [keySep]).length)
    else none

/-- Full `InMemoryCache.get` (lines 38-59), including the
`super().construct_key(user_id, conversation_id, skip_user_id_check)` call
with three positional arguments. -/
def im_get {E : Type} (s : InMemoryCache E) (user_id conversation_id : Str)
    (skip_user_id_check : Bool) :
    Except PyError (Option (List E) × InMemoryCache E) :=
  match construct_key_call
      [.str user_id, .str conversation_id, .pybool skip_user_id_check] with
  | .error e => .error e
  | .ok key => .ok (get_key s key)

/-- Full `InMemoryCache.insert_or_append` (lines 61-90), including the
three-positional-argument `construct_key` call. -/
def im_insert_or_append {E : Type} (s : InMemoryCache E)
    (user_id conversation_id : Str) (value : E) (skip_user_id_check : Bool) :
    Except PyError (InMemoryCache E) :=
  match construct_key_call
      [.str user_id, .str conversation_id, .pybool skip_user_id_check] with
  | .error e => .error e
  | .ok key => insert_or_append_key s key value

/-- Full `InMemoryCache.list` (lines 114-135), including the
`super()._check_user_id(user_id, skip_user_id_check)` call with two
positional arguments. -/
def im_list {E : Type} (s : InMemoryCache E) (user_id : Str)
    (skip_user_id_check : Bool) : Except PyError (List Str) :=
  match check_user_id_call [.str user_id, .pybool skip_user_id_check] with
  | .error e => .error e
  | .ok _ => .ok (list_user s user_id)

/-- Configuration record for the in-memory cache backend. -/
structure InMemoryCacheConfig where
  max_entries : Int
deriving DecidableEq

/-- Modelled from the spec: validation of `InMemoryCacheConfig`
(ols/app/models/config.py, not under src/).  Spec section 4.2:
"Capacity=0 or negative is a configuration error, rejected at
construction"; spec section 6 requires capacity to be an integer > 0. -/
def InMemoryCacheConfig.validate (c : InMemoryCacheConfig) : Except PyError Unit :=
  if c.max_entries ≤ 0 then .error .configurationError else .ok ()

/-- Embedding of `initialize_cache` (in_memory_cache.py lines 31-36): the
capacity is taken from the configuration, deque and dict start empty. -/
def initialize_cache (E : Type) (c : InMemoryCacheConfig) : InMemoryCache E :=
  { capacity := c.max_entries, deque := [], cache := [] }

/-- Construction of the cache object: the configuration is validated
(spec-modelled, see `InMemoryCacheConfig.validate`) before
`initialize_cache` runs. -/
def mkInMemoryCache (E : Type) (c : InMemoryCacheConfig) :
    Except PyError (InMemoryCache E) :=
  match c.validate with
  | .error e => .error e
  | .ok _ => .ok (initialize_cache E c)

/-- Structural invariant of the in-memory backend: the recency deque holds
each key exactly once and holds exactly the keys of the dict (a
permutation), the number of stored conversations never exceeds the
capacity, and the capacity is positive (guaranteed at construction). -/
def Invariant {E : Type} (s : InMemoryCache E) : Prop :=
  s.deque.Nodup ∧ s.deque.Perm (dictKeys s.cache) ∧
    (s.cache.length : Int) ≤ s.capacity ∧ 1 ≤ s.capacity

instance {E : Type} (s : InMemoryCache E) : Decidable (Invariant s) := by
  unfold Invariant
  infer_instance

theorem deque_length_eq_cache_length {E : Type} {s : InMemoryCache E}
    (h : s.deque.Perm (dictKeys s.cache)) : s.deque.length = s.cache.length := by
  have := h.length_eq
  simpa [dictKeys] using this

theorem invariant_get_key {E : Type} {s : InMemoryCache E} (h : Invariant s)
    (key : Str) : Invariant (get_key s key).2 := by
  obtain ⟨hnd, hperm, hlen, hcap⟩ := h
  unfold get_key
  cases hget : dictGet s.cache key with
  | none => exact ⟨hnd, hperm, hlen, hcap⟩
  | some value =>
    have hmemk : key ∈ dictKeys s.cache :=
      (dictGet_isSome_iff_mem _ _).mp (by rw [hget]; rfl)
    have hmemd : key ∈ s.deque := hperm.mem_iff.mpr hmemk
    refine ⟨?_, ?_, hlen, hcap⟩
    · exact List.Nodup.cons (not_mem_eraseStr_self hnd) (nodup_eraseStr key hnd)
    · exact (perm_cons_eraseStr hmemd).symm.trans hperm

theorem invariant_delete_key {E : Type} {s : InMemoryCache E} (h : Invariant s)
    (key : Str) : Invariant (delete_key s key).2 := by
  obtain ⟨hnd, hperm, hlen, hcap⟩ := h
  unfold delete_key
  cases hget : dictGet s.cache key with
  | none => exact ⟨hnd, hperm, hlen, hcap⟩
  | some value =>
    have hmemk : key ∈ dictKeys s.cache :=
      (dictGet_isSome_iff_mem _ _).mp (by rw [hget]; rfl)
    refine ⟨nodup_eraseStr key hnd, ?_, ?_, hcap⟩
    · rw [dictKeys_dictDel]
      exact perm_eraseStr key hperm
    · have hle : (dictDel s.cache key).length ≤ s.cache.length := by
        have h1 : (dictKeys (dictDel s.cache key)).length
            = (eraseStr (dictKeys s.cache) key).length := by
          rw [dictKeys_dictDel]
        have h2 : (eraseStr (dictKeys s.cache) key).length ≤ (dictKeys s.cache).length :=
          length_eraseStr_le _ _
        have h3 : (dictKeys (dictDel s.cache key)).length ≤ (dictKeys s.cache).length := by
          rw [h1]; exact h2
        simpa [dictKeys] using h3
      calc ((dictDel s.cache key).length : Int) ≤ (s.cache.length : Int) := by
              exact_mod_cast hle
        _ ≤ s.capacity := hlen

theorem invariant_insert_or_append_key {E : Type} {s : InMemoryCache E}
    (h : Invariant s) (key : Str) (value : E) :
    ∃ s2, insert_or_append_key s key value = .ok s2 ∧ Invariant s2 ∧
      dictGet s2.cache key =
        some ((dictGet s.cache key).getD [] ++ [value]) := by
  obtain ⟨hnd, hperm, hlen, hcap⟩ := h
  unfold insert_or_append_key
  cases hget : dictGet s.cache key with
  | some old_value =>
    have hmemk : key ∈ dictKeys s.cache :=
      (dictGet_isSome_iff_mem _ _).mp (by rw [hget]; rfl)
    have hmemd : key ∈ s.deque := hperm.mem_iff.mpr hmemk
    refine ⟨_, rfl, ⟨?_, ?_, ?_, hcap⟩, ?_⟩
    · exact List.Nodup.cons (not_mem_eraseStr_self hnd) (nodup_eraseStr key hnd)
    · rw [dictKeys_dictSet_of_mem _ _ _ hmemk]
      exact (perm_cons_eraseStr hmemd).symm.trans hperm
    · rw [length_dictSet_of_mem _ _ _ hmemk]
      exact hlen
    · exact dictGet_dictSet_self _ _ _
  | none =>
    have hnotk : key ∉ dictKeys s.cache := (dictGet_eq_none_iff_not_mem _ _).mp hget
    have hnotd : key ∉ s.deque := fun hm => hnotk (hperm.mem_iff.mp hm)
    by_cases hfull : (s.deque.length : Int) = s.capacity
    · rw [if_pos hfull]
      have hne : s.deque ≠ [] := by
        intro hnil
        rw [hnil] at hfull
        simp at hfull
        omega
      obtain ⟨oldest, holdest⟩ : ∃ o, s.deque.getLast? = some o := by
        cases hl : s.deque.getLast? with
        | none => exact absurd (List.getLast?_eq_none_iff.mp hl) hne
        | some o => exact ⟨o, rfl⟩
      obtain ⟨ds, hds⟩ := List.getLast?_eq_some_iff.mp holdest
      rw [holdest]
      have holdmem : oldest ∈ s.deque := List.mem_of_getLast?_eq_some holdest
      have holdkeys : oldest ∈ dictKeys s.cache := hperm.mem_iff.mp holdmem
      have hnotds : oldest ∉ ds := by
        rw [hds] at hnd
        exact fun hm => (List.disjoint_of_nodup_append hnd) hm (List.mem_singleton_self _)
      have hdrop : s.deque.dropLast = ds := by rw [hds, List.dropLast_concat]
      have hdsnd : ds.Nodup := by
        rw [hds] at hnd
        exact hnd.of_append_left
      have hkeyds : key ∉ ds := fun hm => hnotd (hds ▸ List.mem_append_left _ hm)
      have hkeyerase : key ∉ eraseStr (dictKeys s.cache) oldest :=
        fun hm => hnotk (mem_of_mem_eraseStr hm)
      have hpermds : ds.Perm (eraseStr (dictKeys s.cache) oldest) := by
        have h1 : (eraseStr s.deque oldest).Perm (eraseStr (dictKeys s.cache) oldest) :=
          perm_eraseStr oldest hperm
        have h2 : eraseStr s.deque oldest = ds := by
          rw [hds, eraseStr_append_right _ hnotds, eraseStr_cons, if_pos rfl,
            List.append_nil]
        rwa [h2] at h1
      refine ⟨_, rfl, ⟨?_, ?_, ?_, hcap⟩, dictGet_dictSet_self _ _ _⟩
      · rw [hdrop]
        exact List.Nodup.cons hkeyds hdsnd
      · rw [hdrop, dictKeys_dictSet_of_not_mem _ _ _ (by rw [dictKeys_dictDel]; exact hkeyerase)]
        rw [dictKeys_dictDel]
        exact ((hpermds.cons key).trans (List.perm_append_singleton key _).symm)
      · have hlen1 : (dictDel s.cache oldest).length + 1 = s.cache.length := by
          have h1 : (dictKeys (dictDel s.cache oldest)).length + 1
              = (dictKeys s.cache).length := by
            rw [dictKeys_dictDel]
            exact length_eraseStr_of_mem holdkeys
          simpa [dictKeys] using h1
        rw [length_dictSet_of_not_mem _ _ _ (by rw [dictKeys_dictDel]; exact hkeyerase)]
        rw [hlen1]
        exact hlen
    · rw [if_neg hfull]
      have hlt : (s.deque.length : Int) < s.capacity :=
        lt_of_le_of_ne (by rw [deque_length_eq_cache_length hperm]; exact_mod_cast hlen) hfull
      refine ⟨_, rfl, ⟨?_, ?_, ?_, hcap⟩, dictGet_dictSet_self _ _ _⟩
      · exact List.Nodup.cons hnotd hnd
      · rw [dictKeys_dictSet_of_not_mem _ _ _ hnotk]
        exact ((hperm.cons key).trans (List.perm_append_singleton key _).symm)
      · rw [length_dictSet_of_not_mem _ _ _ hnotk]
        have hdl : s.deque.length = s.cache.length := deque_length_eq_cache_length hperm
        rw [hdl] at hlt
        push_cast
        omega

/-! ## Redis-backed cache (src/ols/src/cache/redis_cache.py) -/

/-- The JSON document the Redis backend stores per compound key: the
ordered history plus the topic summary (redis_cache.py line 141). -/
structure RedisDoc (E : Type) where
  history : List E
  topic_summary : Str
deriving DecidableEq

/-- State of the Redis store as seen by the cache: one document per
compound key. -/
structure RedisCache (E : Type) where
  store : List (Str × RedisDoc E)
deriving DecidableEq

/-- Body of `RedisCache.get_db_entry` after key construction (redis_cache.py
lines 105-111). -/
def redis_get_db_entry {E : Type} (r : RedisCache E) (key : Str) :
    Option (RedisDoc E) :=
  dictGet r.store key

/-- Body of `RedisCache.get` after key construction (lines 82-90): the
stored history, or `None` when the key is absent. -/
def redis_get_key {E : Type} (r : RedisCache E) (key : Str) : Option (List E) :=
  (dictGet r.store key).map RedisDoc.history

/-- Body of `RedisCache.insert_or_append` after key construction (lines
136-142): read-modify-write under the local lock.  An existing document
(always truthy, being a non-empty dict) has the entry appended to its
history and keeps its stored summary; a fresh key gets a new document with
the given summary. -/
def redis_insert_or_append_key {E : Type} (r : RedisCache E) (key : Str)
    (cache_entry : E) (topic_summary : Str) : RedisCache E :=
  match dictGet r.store key with
  | some old_value =>
      ⟨dictSet r.store key
        ⟨old_value.history ++ [cache_entry], old_value.topic_summary⟩⟩
  | none => ⟨dictSet r.store key ⟨[cache_entry], topic_summary⟩⟩

/-- Body of `RedisCache.delete` after key construction (lines 157-159):
`redis.delete` reports how many keys were removed. -/
def redis_delete_key {E : Type} (r : RedisCache E) (key : Str) :
    Bool × RedisCache E :=
  match dictGet r.store key with
  | none => (false, r)
  | some _ => (true, ⟨dictDel r.store key⟩)

/-- Inner loop of `RedisCache.list` (lines 183-197): for each key from the
prefix scan, slice off the prefix, fetch the document through
`get_db_entry` (whose `construct_key` re-validates the conversation id)
and collect the conversation id with its topic summary. -/
def redis_list_loop {E : Type} (store : List (Str × RedisDoc E)) (user_id : Str) :
    List Str → Except PyError (List (Str × Str))
  | [] => .ok []
  | key :: rest =>
      let conversation_id := key.drop (user_id ++ [keySep]).length
      match construct_key user_id conversation_id with
      | .error e => .error e
      | .ok k2 =>
        match dictGet store k2 with
        | none => redis_list_loop store user_id rest
        | some doc =>
            match redis_list_loop store user_id rest with
            | .error e => .error e
            | .ok tail => .ok ((conversation_id, doc.topic_summary) :: tail)

/-- Body of `RedisCache.list` after the user-id check (lines 175-199):
`redis_client.keys(pattern)` returns the keys matching the user's prefix,
but in an order the store does not specify, so the scanned key list is a
parameter here; where this is used, it is constrained only to be some
permutation of the keys matching the prefix.  The fetch loop then runs
over the scanned keys. -/
def redis_list_scan {E : Type} (r : RedisCache E) (user_id : Str)
    (keys_scanned : List Str) : Except PyError (List (Str × Str)) :=
  redis_list_loop r.store user_id keys_scanned

/-! ## Token-quota limiter (src/ols/src/quota/user_quota_limiter.py) -/

/-- One row of the `user_quota_limiter` table (the timestamp columns are
omitted: no claim concerns them). -/
structure QuotaRecord where
  quota_limit : Int
  available : Int
deriving DecidableEq

/-- The quota table, keyed by user id (`user_id` is the primary key). -/
abbrev QuotaDB := List (Str × QuotaRecord)

/-- `SELECT available FROM user_quota_limiter WHERE user_id=%s LIMIT 1`
(`SELECT_QUOTA_FOR_USER`). -/
def selectQuotaForUser (db : QuotaDB) (user_id : Str) : Option Int :=
  (dictGet db user_id).map QuotaRecord.available

/-- `INSERT INTO user_quota_limiter ...` (`INIT_QUOTA_FOR_USER`). -/
def initQuotaForUser (db : QuotaDB) (user_id : Str) (lim available : Int) :
    QuotaDB :=
  db ++ [(user_id, ⟨lim, available⟩)]

/-- `UPDATE user_quota_limiter SET available=%s ... WHERE user_id=%s`
(`SET_AVAILABLE_QUOTA_FOR_USER`): updates the matching row; it matches
zero rows, changing nothing, when the user has no record. -/
def setAvailableQuotaForUser (db : QuotaDB) (user_id : Str) (available : Int) :
    QuotaDB :=
  db.map fun p =>
    if p.1 = user_id then (p.1, ⟨p.2.quota_limit, available⟩) else p

/-- `UPDATE user_quota_limiter SET available=available+%s ... WHERE
user_id=%s` (`UPDATE_AVAILABLE_QUOTA_FOR_USER`): an unconditional
increment of the matching row. -/
def updateAvailableQuotaForUser (db : QuotaDB) (user_id : Str) (delta : Int) :
    QuotaDB :=
  db.map fun p =>
    if p.1 = user_id then (p.1, ⟨p.2.quota_limit, p.2.available + delta⟩) else p

/-- The limiter's configuration held on the instance (`__init__`,
user_quota_limiter.py lines 52-57). -/
structure UserQuotaLimiter where
  initial_quota : Int
  increase_by : Int
deriving DecidableEq

/-- `_init_quota` (lines 145-155): inserts the initial allotment for the
user. -/
def init_quota (L : UserQuotaLimiter) (db : QuotaDB) (user_id : Str) : QuotaDB :=
  initQuotaForUser db user_id L.initial_quota L.initial_quota

/-- `available_quota` (lines 78-89): reads the user row; an unknown user
is lazily provisioned with the initial allotment, which is also the value
returned. -/
def available_quota (L : UserQuotaLimiter) (db : QuotaDB) (user_id : Str) :
    Int × QuotaDB :=
  match selectQuotaForUser db user_id with
  | none => (L.initial_quota, init_quota L db user_id)
  | some value => (value, db)

/-- `revoke_quota` (lines 91-101): one UPDATE resetting `available` to the
initial allotment; zero rows match when the user is unknown. -/
def revoke_quota (L : UserQuotaLimiter) (db : QuotaDB) (user_id : Str) :
    QuotaDB :=
  setAvailableQuotaForUser db user_id L.initial_quota

/-- `increase_quota` (lines 103-113): one UPDATE adding the replenishment
amount; zero rows match when the user is unknown. -/
def increase_quota (L : UserQuotaLimiter) (db : QuotaDB) (user_id : Str) :
    QuotaDB :=
  updateAvailableQuotaForUser db user_id L.increase_by

/-- `QuotaExceedError` (quota_exceed_error.py lines 7-25): the constructor
declares four required positional parameters
`(subject_id, subject_type, available, needed)`. -/
structure QuotaExceedError where
  subject_id : PyVal
  subject_type : PyVal
  available : PyVal
  needed : PyVal
deriving DecidableEq

/-- Python positional-call semantics for `QuotaExceedError(...)`: the
constructor requires exactly four positional arguments; `consume_tokens`
passes three (user_quota_limiter.py line 124), so that call raises
`TypeError` instead of producing the exception object. -/
def QuotaExceedError.call (args : List PyVal) : Except PyError QuotaExceedError :=
  match args with
  | [a, b, c, d] => .ok ⟨a, b, c, d⟩
  | _ => .error .typeError

/-- What `consume_tokens` can raise. -/
inductive QuotaRaise where
  | quotaExceed (e : QuotaExceedError)
  | pyError (e : PyError)
deriving DecidableEq

/-- `consume_tokens` (lines 115-136): reads the available quota (lazily
provisioning the user), raises when the requested amount exceeds it — by
calling `QuotaExceedError(user_id, available, to_be_consumed)` with three
positional arguments — and otherwise debits through a second,
unconditional UPDATE statement. -/
def consume_tokens (L : UserQuotaLimiter) (db : QuotaDB)
    (input_tokens output_tokens : Int) (user_id : Str) :
    QuotaDB × Except QuotaRaise Unit :=
  let to_be_consumed := input_tokens + output_tokens
  let p := available_quota L db user_id
  if p.1 < to_be_consumed then
    match QuotaExceedError.call [.str user_id, .int p.1, .int to_be_consumed] with
    | .ok e => (p.2, .error (.quotaExceed e))
    | .error pe => (p.2, .error (.pyError pe))
  else
    (updateAvailableQuotaForUser p.2 user_id (-to_be_consumed), .ok ())

/-- The phase of one in-flight `consume_tokens` call.  With
`autocommit = True` (user_quota_limiter.py line 70) each SQL statement
commits on its own, so one call is two separate atomic steps: the SELECT
(via `available_quota`), then the local check together with the debit
UPDATE. -/
inductive ConsumePhase where
  | start
  | haveAvailable (v : Int)
  | completed
  | raisedExc
deriving DecidableEq

/-- One in-flight `consume_tokens(input_tokens, output_tokens, user_id)`
call. -/
structure ConsumeSession where
  input_tokens : Int
  output_tokens : Int
  user_id : Str
  phase : ConsumePhase
deriving DecidableEq

/-- One atomic step of an in-flight `consume_tokens` call against the
shared table. -/
def consumeStep (L : UserQuotaLimiter) (db : QuotaDB) (c : ConsumeSession) :
    QuotaDB × ConsumeSession :=
  match c.phase with
  | .start =>
      let p := available_quota L db c.user_id
      (p.2, { c with phase := .haveAvailable p.1 })
  | .haveAvailable v =>
      if v < c.input_tokens + c.output_tokens then
        (db, { c with phase := .raisedExc })
      else
        (updateAvailableQuotaForUser db c.user_id
          (-(c.input_tokens + c.output_tokens)),
         { c with phase := .completed })
  | .completed => (db, c)
  | .raisedExc => (db, c)

/-- Run two concurrent `consume_tokens` calls against the shared table
under an explicit schedule: `true` steps the first session, `false` the
second. -/
def runTwo (L : UserQuotaLimiter) :
    List Bool → QuotaDB × ConsumeSession × ConsumeSession →
      QuotaDB × ConsumeSession × ConsumeSession
  | [], st => st
  | pick :: rest, (db, a, b) =>
      if pick then
        let q := consumeStep L db a
        runTwo L rest (q.1, q.2, b)
      else
        let q := consumeStep L db b
        runTwo L rest (q.1, a, q.2)

/-! ## Further dict lemmas used by the claim proofs -/

theorem dictSet_eq_append_of_not_mem {α : Type} (d : List (Str × α)) (k : Str)
    (v : α) (h : k ∉ dictKeys d) : dictSet d k v = d ++ [(k, v)] := by
  induction d with
  | nil => rfl
  | cons p rest ih =>
    obtain ⟨k2, v2⟩ := p
    rw [dictKeys_cons, List.mem_cons] at h
    push_neg at h
    rw [dictSet_cons, if_neg (fun he => h.1 he.symm), ih h.2, List.cons_append]

theorem dictGet_append_of_not_mem {α : Type} (d : List (Str × α)) (k : Str)
    (v : α) (h : k ∉ dictKeys d) : dictGet (d ++ [(k, v)]) k = some v := by
  induction d with
  | nil => simp [dictGet]
  | cons p rest ih =>
    obtain ⟨k2, v2⟩ := p
    rw [dictKeys_cons, List.mem_cons] at h
    push_neg at h
    rw [List.cons_append, dictGet_cons, if_neg (fun he => h.1 he.symm), ih h.2]

theorem setAvailable_of_not_mem (db : QuotaDB) (user_id : Str) (av : Int)
    (h : user_id ∉ dictKeys db) :
    setAvailableQuotaForUser db user_id av = db := by
  induction db with
  | nil => rfl
  | cons p rest ih =>
    rw [dictKeys_cons, List.mem_cons] at h
    push_neg at h
    simp only [setAvailableQuotaForUser, List.map_cons] at ih ⊢
    rw [if_neg (fun he => h.1 he.symm), ih h.2]

theorem updateAvailable_of_not_mem (db : QuotaDB) (user_id : Str) (delta : Int)
    (h : user_id ∉ dictKeys db) :
    updateAvailableQuotaForUser db user_id delta = db := by
  induction db with
  | nil => rfl
  | cons p rest ih =>
    rw [dictKeys_cons, List.mem_cons] at h
    push_neg at h
    simp only [updateAvailableQuotaForUser, List.map_cons] at ih ⊢
    rw [if_neg (fun he => h.1 he.symm), ih h.2]

/-! ## Claim C10 -/

/-- C10: for a subject with no quota record, `revoke_quota` and
`increase_quota` return normally, create no record and change no stored
state (their UPDATE matches zero rows); only `available_quota` lazily
provisions the subject, with the initial allotment both stored and
returned. -/
theorem revoke_increase_noop_for_unknown_subject (L : UserQuotaLimiter)
    (db : QuotaDB) (user_id : Str) (h : dictGet db user_id = none) :
    revoke_quota L db user_id = db ∧
    increase_quota L db user_id = db ∧
    available_quota L db user_id =
      (L.initial_quota, db ++ [(user_id, ⟨L.initial_quota, L.initial_quota⟩)]) := by
  have hnm : user_id ∉ dictKeys db := (dictGet_eq_none_iff_not_mem db user_id).mp h
  refine ⟨setAvailable_of_not_mem db user_id _ hnm,
    updateAvailable_of_not_mem db user_id _ hnm, ?_⟩
  unfold available_quota selectQuotaForUser
  rw [h]
  rfl

/-- Witness for C10 at a concrete empty table. -/
theorem revoke_increase_noop_for_unknown_subject_witness :
    dictGet ([] : QuotaDB) ['a'] = none ∧
      (revoke_quota ⟨5, 2⟩ [] ['a'] = [] ∧
       increase_quota ⟨5, 2⟩ [] ['a'] = [] ∧
       available_quota ⟨5, 2⟩ [] ['a'] = (5, [(['a'], ⟨5, 5⟩)])) :=
  ⟨rfl, revoke_increase_noop_for_unknown_subject ⟨5, 2⟩ [] ['a'] rfl⟩

/-- Evaluation of `available_quota` when the subject has a record. -/
theorem available_quota_of_some (L : UserQuotaLimiter) {db : QuotaDB}
    {user_id : Str} {r : QuotaRecord} (h : dictGet db user_id = some r) :
    available_quota L db user_id = (r.available, db) := by
  unfold available_quota selectQuotaForUser
  rw [h]
  rfl

/-- Evaluation of `available_quota` when the subject has no record: the
lazy INSERT provisions it. -/
theorem available_quota_of_none (L : UserQuotaLimiter) {db : QuotaDB}
    {user_id : Str} (h : dictGet db user_id = none) :
    available_quota L db user_id =
      (L.initial_quota,
        db ++ [(user_id, ⟨L.initial_quota, L.initial_quota⟩)]) := by
  unfold available_quota selectQuotaForUser init_quota initQuotaForUser
  rw [h]
  rfl

/-! ## Claim C1 -/

/-- C1: when the requested amount strictly exceeds the available quota,
`consume_tokens` performs no debit — the available quota is unchanged —
but what it raises is a `TypeError` from calling the four-parameter
`QuotaExceedError` constructor with three positional arguments
(user_quota_limiter.py line 124), not a `QuotaExceedError` carrying
subject, available and needed. -/
theorem consume_tokens_exceeded_raises_type_error (L : UserQuotaLimiter)
    (db : QuotaDB) (user_id : Str) (input_tokens output_tokens : Int)
    (h : (available_quota L db user_id).1 < input_tokens + output_tokens) :
    consume_tokens L db input_tokens output_tokens user_id =
      ((available_quota L db user_id).2,
        .error (.pyError .typeError)) ∧
    (available_quota L
        (consume_tokens L db input_tokens output_tokens user_id).1 user_id).1 =
      (available_quota L db user_id).1 := by
  have h1 : consume_tokens L db input_tokens output_tokens user_id =
      ((available_quota L db user_id).2, .error (.pyError .typeError)) := by
    unfold consume_tokens
    rw [if_pos h]
    rfl
  refine ⟨h1, ?_⟩
  rw [h1]
  cases hget : dictGet db user_id with
  | some r =>
    rw [available_quota_of_some L hget]
    dsimp only
    rw [available_quota_of_some L hget]
  | none =>
    have hnm : user_id ∉ dictKeys db := (dictGet_eq_none_iff_not_mem db user_id).mp hget
    rw [available_quota_of_none L hget]
    dsimp only
    rw [available_quota_of_some L (dictGet_append_of_not_mem db user_id _ hnm)]

/-- Witness for C1: a subject with 50 available asked for 100. -/
theorem consume_tokens_exceeded_raises_type_error_witness :
    (available_quota ⟨100, 0⟩ [(['a'], ⟨100, 50⟩)] ['a']).1 < 100 + 0 ∧
      (consume_tokens ⟨100, 0⟩ [(['a'], ⟨100, 50⟩)] 100 0 ['a'] =
        ([(['a'], ⟨100, 50⟩)], .error (.pyError .typeError)) ∧
       (available_quota ⟨100, 0⟩
          (consume_tokens ⟨100, 0⟩ [(['a'], ⟨100, 50⟩)] 100 0 ['a']).1 ['a']).1 =
        (available_quota ⟨100, 0⟩ [(['a'], ⟨100, 50⟩)] ['a']).1) :=
  ⟨by decide,
   consume_tokens_exceeded_raises_type_error ⟨100, 0⟩ [(['a'], ⟨100, 50⟩)] ['a']
     100 0 (by decide)⟩

/-! ## Claim C4 -/

/-- C4: a concrete double-spend interleaving.  Subject `a` has 10 tokens
available; two concurrent `consume_tokens` calls of 10 tokens each are
scheduled SELECT, SELECT, UPDATE, UPDATE (`autocommit` makes each
statement atomic on its own).  Both calls pass their local check and
complete without raising, and the table is left at `available = -10`:
20 tokens were debited against a quota of 10, because the check and the
debit are a separate SELECT and an unconditional UPDATE rather than a
single conditional update. -/
theorem consume_tokens_double_spend_interleaving :
    runTwo ⟨10, 0⟩ [true, false, true, false]
        ([(['a'], ⟨10, 10⟩)],
         ⟨10, 0, ['a'], .start⟩, ⟨10, 0, ['a'], .start⟩) =
      ([(['a'], ⟨10, -10⟩)],
       ⟨10, 0, ['a'], .completed⟩, ⟨10, 0, ['a'], .completed⟩) := by
  decide

/-! ## Claim C9 -/

/-- C9: constructing the in-memory cache with capacity zero or negative
fails at construction with a configuration error (spec-modelled
validation, see `InMemoryCacheConfig.validate`), and every successfully
constructed cache instance has positive capacity. -/
theorem capacity_rejected_at_construction (E : Type) (c : InMemoryCacheConfig) :
    (c.max_entries ≤ 0 → mkInMemoryCache E c = .error .configurationError) ∧
    (∀ s, mkInMemoryCache E c = .ok s → 1 ≤ s.capacity) := by
  constructor
  · intro h
    unfold mkInMemoryCache InMemoryCacheConfig.validate
    rw [if_pos h]
  · intro s hs
    unfold mkInMemoryCache InMemoryCacheConfig.validate at hs
    by_cases h : c.max_entries ≤ 0
    · rw [if_pos h] at hs
      exact absurd hs (by simp)
    · rw [if_neg h] at hs
      injection hs with h2
      rw [← h2]
      show (1 : Int) ≤ c.max_entries
      omega

/-- Witness for C9: capacity 0 is rejected; capacity 2 yields a positive
capacity instance. -/
theorem capacity_rejected_at_construction_witness :
    ((0 : Int) ≤ 0 ∧ mkInMemoryCache Unit ⟨0⟩ = .error .configurationError) ∧
      (mkInMemoryCache Unit ⟨2⟩ = .ok ⟨2, [], []⟩ ∧
        1 ≤ (InMemoryCache.mk 2 [] [] : InMemoryCache Unit).capacity) :=
  ⟨⟨le_refl 0, (capacity_rejected_at_construction Unit ⟨0⟩).1 (le_refl 0)⟩,
   ⟨rfl, (capacity_rejected_at_construction Unit ⟨2⟩).2 ⟨2, [], []⟩ rfl⟩⟩

/-! ## Claim C3 -/

/-- C3: no cache operation honors `skip_user_id_check`.  Every backend
passes three positional arguments to the two-parameter
`Cache.construct_key` and two to the one-parameter `Cache._check_user_id`
(cache.py lines 22-39), so every `get`, `insert_or_append` and `list`
call raises `TypeError` — whatever the identifiers and whatever the flag.
In particular a malformed user id is never accepted under the skip flag,
and valid identifiers do not proceed normally either. -/
theorem skip_user_id_check_never_honored (E : Type) (s : InMemoryCache E)
    (user_id conversation_id : Str) (value : E) (skip_flag : Bool) :
    im_get s user_id conversation_id skip_flag = .error .typeError ∧
    im_insert_or_append s user_id conversation_id value skip_flag =
      .error .typeError ∧
    im_list s user_id skip_flag = .error .typeError :=
  ⟨rfl, rfl, rfl⟩

/-! ## Claim C6 -/

/-- C6: every in-memory operation preserves the structural invariant: the
recency deque and the key-to-record map hold exactly the same keys, each
key occurs exactly once in the deque, and the number of stored
conversations never exceeds the capacity fixed at construction. -/
theorem operations_preserve_invariant (E : Type) (s : InMemoryCache E)
    (h : Invariant s) (key : Str) (value : E) :
    Invariant (get_key s key).2 ∧
    (∀ s2, insert_or_append_key s key value = .ok s2 → Invariant s2) ∧
    Invariant (delete_key s key).2 := by
  refine ⟨invariant_get_key h key, ?_, invariant_delete_key h key⟩
  intro s2 h2
  obtain ⟨s3, h3, h4, h5⟩ := invariant_insert_or_append_key h key value
  rw [h3] at h2
  injection h2 with h6
  rw [← h6]
  exact h4

/-- Witness for C6 at a concrete two-conversation state. -/
theorem operations_preserve_invariant_witness :
    Invariant (⟨2, [['a'], ['b']], [(['b'], [5]), (['a'], [7])]⟩ :
        InMemoryCache Nat) ∧
      (Invariant
          (get_key (⟨2, [['a'], ['b']], [(['b'], [5]), (['a'], [7])]⟩ :
            InMemoryCache Nat) ['b']).2 ∧
        (∀ s2,
            insert_or_append_key (⟨2, [['a'], ['b']],
              [(['b'], [5]), (['a'], [7])]⟩ : InMemoryCache Nat) ['b'] 9 =
                .ok s2 →
            Invariant s2) ∧
        Invariant
          (delete_key (⟨2, [['a'], ['b']], [(['b'], [5]), (['a'], [7])]⟩ :
            InMemoryCache Nat) ['b']).2) :=
  ⟨by decide,
   operations_preserve_invariant Nat
     ⟨2, [['a'], ['b']], [(['b'], [5]), (['a'], [7])]⟩ (by decide) ['b'] 9⟩

/-! ## Computation rules for the in-memory operations -/

theorem insert_or_append_key_existing {E : Type} (s : InMemoryCache E)
    (key : Str) (v : E) (l : List E) (h : dictGet s.cache key = some l) :
    insert_or_append_key s key v =
      .ok ⟨s.capacity, key :: eraseStr s.deque key,
        dictSet s.cache key (l ++ [v])⟩ := by
  simp only [insert_or_append_key, h]

theorem insert_or_append_key_fresh_not_full {E : Type} (s : InMemoryCache E)
    (key : Str) (v : E) (h : dictGet s.cache key = none)
    (hnf : (s.deque.length : Int) ≠ s.capacity) :
    insert_or_append_key s key v =
      .ok ⟨s.capacity, key :: s.deque, dictSet s.cache key [v]⟩ := by
  simp only [insert_or_append_key, h, if_neg hnf]

theorem insert_or_append_key_fresh_full {E : Type} (s : InMemoryCache E)
    (key oldest : Str) (v : E) (h : dictGet s.cache key = none)
    (hf : (s.deque.length : Int) = s.capacity)
    (hl : s.deque.getLast? = some oldest) :
    insert_or_append_key s key v =
      .ok ⟨s.capacity, key :: s.deque.dropLast,
        dictSet (dictDel s.cache oldest) key [v]⟩ := by
  simp only [insert_or_append_key, h, if_pos hf, hl]

theorem get_key_of_some {E : Type} (s : InMemoryCache E) (key : Str)
    (l : List E) (h : dictGet s.cache key = some l) :
    get_key s key =
      (some l, ⟨s.capacity, key :: eraseStr s.deque key, s.cache⟩) := by
  simp only [get_key, h]

/-! ## Iterated operations used by claims C2 and C5 -/

/-- Insert a sequence of conversation keys one after another, each with a
single entry. -/
def insertEach {E : Type} (s : InMemoryCache E) (ks : List Str) (value : E) :
    Except PyError (InMemoryCache E) :=
  match ks with
  | [] => .ok s
  | k :: rest =>
      match insert_or_append_key s k value with
      | .error e => .error e
      | .ok s2 => insertEach s2 rest value

/-- Append a sequence of entries to a single conversation key. -/
def appendMany {E : Type} (s : InMemoryCache E) (key : Str) (es : List E) :
    Except PyError (InMemoryCache E) :=
  match es with
  | [] => .ok s
  | e :: rest =>
      match insert_or_append_key s key e with
      | .error err => .error err
      | .ok s2 => appendMany s2 key rest

/-- Append a sequence of entries to a single key of the Redis backend. -/
def redisAppendMany {E : Type} (r : RedisCache E) (key : Str) (es : List E)
    (topic_summary : Str) : RedisCache E :=
  match es with
  | [] => r
  | e :: rest =>
      redisAppendMany (redis_insert_or_append_key r key e topic_summary)
        key rest topic_summary

theorem dictKeys_keyedMap {E : Type} (value : E) (ks : List Str) :
    dictKeys (ks.map (fun k => (k, [value]))) = ks := by
  induction ks with
  | nil => rfl
  | cons a t ih => rw [List.map_cons, dictKeys_cons, ih]

theorem insertEach_append_ok {E : Type} (value : E) (l1 l2 : List Str)
    (s s1 : InMemoryCache E) (h : insertEach s l1 value = .ok s1) :
    insertEach s (l1 ++ l2) value = insertEach s1 l2 value := by
  induction l1 generalizing s with
  | nil =>
    have h2 : s = s1 := by
      have h3 : (Except.ok s : Except PyError (InMemoryCache E)) = .ok s1 := h
      injection h3
    rw [List.nil_append, h2]
  | cons k rest ih =>
    rw [List.cons_append]
    simp only [insertEach] at h ⊢
    cases hins : insert_or_append_key s k value with
    | error e =>
      rw [hins] at h
      exact absurd h (by simp)
    | ok s2 =>
      rw [hins] at h
      exact ih s2 h

/-- Filling an LRU cache below capacity with fresh keys: inserting the
distinct keys `ks`, given `done` already inserted in this order, keeps
every key and records recency as insertion order. -/
theorem insertEach_fill {E : Type} (value : E) (C : Int) :
    ∀ (ks done : List Str), (done ++ ks).Nodup →
      ((done.length : Int) + ks.length ≤ C) →
      insertEach ⟨C, done.reverse, done.map (fun k => (k, [value]))⟩ ks value =
        .ok ⟨C, (done ++ ks).reverse,
          (done ++ ks).map (fun k => (k, [value]))⟩ := by
  intro ks
  induction ks with
  | nil =>
    intro done hnd hlen
    rw [List.append_nil]
    rfl
  | cons k rest ih =>
    intro done hnd hlen
    have hknotin : k ∉ done :=
      fun hk => (List.disjoint_of_nodup_append hnd) hk (List.mem_cons_self k rest)
    have hfresh : dictGet (done.map (fun k2 => (k2, [value]))) k = none := by
      rw [dictGet_eq_none_iff_not_mem, dictKeys_keyedMap]
      exact hknotin
    have hlen2 : (done.length : Int) + 1 + (rest.length : Int) ≤ C := by
      rw [List.length_cons] at hlen
      push_cast at hlen ⊢
      omega
    have hnf : (((done.reverse).length : Nat) : Int) ≠ C := by
      rw [List.length_reverse]
      omega
    have hins := insert_or_append_key_fresh_not_full
      (⟨C, done.reverse, done.map (fun k2 => (k2, [value]))⟩ : InMemoryCache E)
      k value hfresh hnf
    have hset : dictSet (done.map (fun k2 => (k2, [value]))) k [value]
        = (done ++ [k]).map (fun k2 => (k2, [value])) := by
      rw [dictSet_eq_append_of_not_mem _ _ _
        (by rw [dictKeys_keyedMap]; exact hknotin), List.map_append]
      rfl
    have hrev : (k :: done.reverse) = (done ++ [k]).reverse := by
      rw [List.reverse_append]
      rfl
    simp only [insertEach, hins]
    rw [hset, hrev]
    have hnd2 : ((done ++ [k]) ++ rest).Nodup := by
      rw [List.append_assoc]
      exact hnd
    have hlen3 : (((done ++ [k]).length : Nat) : Int) + (rest.length : Int) ≤ C := by
      rw [List.length_append, List.length_singleton]
      push_cast
      omega
    rw [ih (done ++ [k]) hnd2 hlen3, List.append_assoc]
    rfl

/-- The `(C+1)`-st distinct insert evicts exactly the first-inserted key:
from empty with capacity `C = |t| + 1`, inserting `h0 :: t ++ [klast]`
leaves exactly `t ++ [klast]` stored, in recency order. -/
theorem insertEach_evicts_head {E : Type} (value : E) (h0 klast : Str)
    (t : List Str) (C : Nat) (hnd : ((h0 :: t) ++ [klast]).Nodup)
    (hC : t.length + 1 = C) :
    insertEach ⟨(C : Int), [], []⟩ ((h0 :: t) ++ [klast]) value =
      .ok ⟨(C : Int), (t ++ [klast]).reverse,
        (t ++ [klast]).map (fun k => (k, [value]))⟩ := by
  have hnd1 : (h0 :: t).Nodup := (List.nodup_append.mp hnd).1
  have hlen1 : ((([] : List Str).length : Nat) : Int) + ((h0 :: t).length : Int)
      ≤ (C : Int) := by
    rw [List.length_nil, List.length_cons]
    push_cast
    omega
  have hfill0 := insertEach_fill value (C : Int) (h0 :: t) [] (by simpa using hnd1)
    hlen1
  have hfill : insertEach (⟨(C : Int), [], []⟩ : InMemoryCache E) (h0 :: t) value
      = .ok ⟨(C : Int), (h0 :: t).reverse,
          (h0 :: t).map (fun k => (k, [value]))⟩ := by
    simpa using hfill0
  rw [insertEach_append_ok value (h0 :: t) [klast] _ _ hfill]
  have hlastfresh : klast ∉ h0 :: t :=
    fun hk => (List.disjoint_of_nodup_append hnd) hk (List.mem_singleton_self _)
  have hfresh : dictGet ((h0 :: t).map (fun k2 => (k2, [value]))) klast = none := by
    rw [dictGet_eq_none_iff_not_mem, dictKeys_keyedMap]
    exact hlastfresh
  have hf : ((((h0 :: t).reverse).length : Nat) : Int) = (C : Int) := by
    rw [List.length_reverse, List.length_cons]
    push_cast
    omega
  have hl : ((h0 :: t).reverse).getLast? = some h0 := by
    rw [List.getLast?_reverse]
    rfl
  have hins := insert_or_append_key_fresh_full
    (⟨(C : Int), (h0 :: t).reverse, (h0 :: t).map (fun k2 => (k2, [value]))⟩ :
      InMemoryCache E) klast h0 value hfresh hf hl
  simp only [insertEach, hins]
  have hdrop : ((h0 :: t).reverse).dropLast = t.reverse := by
    rw [List.reverse_cons, List.dropLast_concat]
  have hdel : dictDel ((h0 :: t).map (fun k2 => (k2, [value]))) h0
      = t.map (fun k2 => (k2, [value])) := by
    rw [List.map_cons, dictDel_cons, if_pos rfl]
  have hknott : klast ∉ t := fun hk => hlastfresh (List.mem_cons_of_mem h0 hk)
  have hset : dictSet (t.map (fun k2 => (k2, [value]))) klast [value]
      = (t ++ [klast]).map (fun k2 => (k2, [value])) := by
    rw [dictSet_eq_append_of_not_mem _ _ _
      (by rw [dictKeys_keyedMap]; exact hknott), List.map_append]
    rfl
  have hrev : klast :: t.reverse = (t ++ [klast]).reverse := by
    rw [List.reverse_append]
    rfl
  rw [hdrop, hdel, hset, hrev]

theorem appendMany_of_present {E : Type} (key : Str) :
    ∀ (es : List E) (s : InMemoryCache E) (l : List E),
      dictGet s.cache key = some l →
      ∃ s2, appendMany s key es = .ok s2 ∧
        dictGet s2.cache key = some (l ++ es) := by
  intro es
  induction es with
  | nil =>
    intro s l h
    refine ⟨s, rfl, ?_⟩
    rw [List.append_nil]
    exact h
  | cons e rest ih =>
    intro s l h
    have hins := insert_or_append_key_existing s key e l h
    have h1 : dictGet (dictSet s.cache key (l ++ [e])) key = some (l ++ [e]) :=
      dictGet_dictSet_self _ _ _
    obtain ⟨s2, h2, h3⟩ := ih
      ⟨s.capacity, key :: eraseStr s.deque key, dictSet s.cache key (l ++ [e])⟩
      (l ++ [e]) h1
    refine ⟨s2, ?_, ?_⟩
    · simp only [appendMany, hins]
      exact h2
    · rw [List.append_assoc] at h3
      exact h3

theorem redisAppendMany_of_present {E : Type} (key topic_summary : Str) :
    ∀ (es : List E) (r : RedisCache E) (doc : RedisDoc E),
      dictGet r.store key = some doc →
      dictGet (redisAppendMany r key es topic_summary).store key =
        some ⟨doc.history ++ es, doc.topic_summary⟩ := by
  intro es
  induction es with
  | nil =>
    intro r doc h
    rw [List.append_nil]
    exact h
  | cons e rest ih =>
    intro r doc h
    have hstep : redis_insert_or_append_key r key e topic_summary =
        ⟨dictSet r.store key ⟨doc.history ++ [e], doc.topic_summary⟩⟩ := by
      simp only [redis_insert_or_append_key, h]
    simp only [redisAppendMany, hstep]
    have h1 : dictGet (dictSet r.store key
        ⟨doc.history ++ [e], doc.topic_summary⟩) key =
        some ⟨doc.history ++ [e], doc.topic_summary⟩ := dictGet_dictSet_self _ _ _
    have h2 := ih ⟨dictSet r.store key ⟨doc.history ++ [e], doc.topic_summary⟩⟩
      ⟨doc.history ++ [e], doc.topic_summary⟩ h1
    rw [List.append_assoc] at h2
    exact h2

/-! ## Claim C2 -/

/-- C2: LRU correctness of the in-memory backend.  First conjunct:
inserting `C+1` distinct conversation keys into an empty cache of
capacity `C = |t|+1` evicts exactly the first-inserted (least recently
used, tail of the recency deque) key `h0` and no other: the resulting
store holds exactly `t ++ [klast]`.  Second conjunct: a `get` on a
resident key promotes it to the most-recently-used (head) position, and
as long as some other key is resident, a subsequent fresh insert evicts
some other key — the promoted key survives with its entries intact. -/
theorem lru_eviction_correct (E : Type) (value : E) :
    (∀ (C : Nat) (h0 klast : Str) (t : List Str),
        ((h0 :: t) ++ [klast]).Nodup → t.length + 1 = C →
        insertEach ⟨(C : Int), [], []⟩ ((h0 :: t) ++ [klast]) value =
          .ok ⟨(C : Int), (t ++ [klast]).reverse,
            (t ++ [klast]).map (fun k => (k, [value]))⟩) ∧
    (∀ (s : InMemoryCache E) (k k2 knew : Str) (l : List E),
        Invariant s → dictGet s.cache k = some l → k2 ∈ s.deque → k2 ≠ k →
        knew ∉ dictKeys s.cache → knew ≠ k →
        (get_key s k).2.deque.head? = some k ∧
        (∀ s2, insert_or_append_key (get_key s k).2 knew value = .ok s2 →
          dictGet s2.cache k = some l)) := by
  constructor
  · intro C h0 klast t hnd hC
    exact insertEach_evicts_head value h0 klast t C hnd hC
  · intro s k k2 knew l hinv hk hk2 hne hnew hnewk
    have hg := get_key_of_some s k l hk
    rw [hg]
    refine ⟨rfl, ?_⟩
    intro s2 h2
    have hfresh1 : dictGet s.cache knew = none :=
      (dictGet_eq_none_iff_not_mem _ _).mpr hnew
    by_cases hfull :
        (((k :: eraseStr s.deque k).length : Nat) : Int) = s.capacity
    · have hk2e : k2 ∈ eraseStr s.deque k := (mem_eraseStr_of_ne hne).mpr hk2
      have hnonnil : eraseStr s.deque k ≠ [] := by
        intro hnil
        rw [hnil] at hk2e
        exact absurd hk2e (List.not_mem_nil k2)
      obtain ⟨e0, es, hes⟩ := List.exists_cons_of_ne_nil hnonnil
      obtain ⟨oldest, holdest⟩ : ∃ o, (e0 :: es).getLast? = some o := by
        cases hcase : (e0 :: es).getLast? with
        | none => exact absurd (List.getLast?_eq_none_iff.mp hcase) (by simp)
        | some o => exact ⟨o, rfl⟩
      have holdmem : oldest ∈ eraseStr s.deque k := by
        rw [hes]
        exact List.mem_of_getLast?_eq_some holdest
      have holdne : oldest ≠ k := by
        intro he
        exact not_mem_eraseStr_self hinv.1 (he ▸ holdmem)
      have hgl : (k :: eraseStr s.deque k).getLast? = some oldest := by
        rw [hes, List.getLast?_cons_cons]
        exact holdest
      have hins := insert_or_append_key_fresh_full
        (⟨s.capacity, k :: eraseStr s.deque k, s.cache⟩ : InMemoryCache E)
        knew oldest value hfresh1 hfull hgl
      rw [hins] at h2
      injection h2 with h3
      rw [← h3]
      show dictGet (dictSet (dictDel s.cache oldest) knew [value]) k = some l
      rw [dictGet_dictSet_ne _ _ _ _ hnewk, dictGet_dictDel_ne _ _ _ holdne]
      exact hk
    · have hins := insert_or_append_key_fresh_not_full
        (⟨s.capacity, k :: eraseStr s.deque k, s.cache⟩ : InMemoryCache E)
        knew value hfresh1 hfull
      rw [hins] at h2
      injection h2 with h3
      rw [← h3]
      show dictGet (dictSet s.cache knew [value]) k = some l
      rw [dictGet_dictSet_ne _ _ _ _ hnewk]
      exact hk

/-- Witness for C2: capacity 2; inserting a, b, c evicts exactly a; in
the state deque [a, b] a `get` of b promotes it and a fresh insert of c
evicts a, not b. -/
theorem lru_eviction_correct_witness :
    (([['a']] ++ [['b']] ++ [['c']] : List Str).Nodup ∧
      insertEach (⟨(2 : Int), [], []⟩ : InMemoryCache Nat)
          ((['a'] :: [['b']]) ++ [['c']]) 0 =
        .ok ⟨(2 : Int), ([['b']] ++ [['c']]).reverse,
          ([['b']] ++ [['c']]).map (fun k => (k, [0]))⟩) ∧
    ((get_key (⟨2, [['a'], ['b']], [(['a'], [7]), (['b'], [8])]⟩ :
        InMemoryCache Nat) ['b']).2.deque.head? = some ['b'] ∧
      (∀ s2,
        insert_or_append_key
            (get_key (⟨2, [['a'], ['b']], [(['a'], [7]), (['b'], [8])]⟩ :
              InMemoryCache Nat) ['b']).2 ['c'] 0 = .ok s2 →
        dictGet s2.cache ['b'] = some [8])) :=
  ⟨⟨by decide,
    (lru_eviction_correct Nat 0).1 2 ['a'] ['c'] [['b']] (by decide) (by decide)⟩,
   (lru_eviction_correct Nat 0).2
     ⟨2, [['a'], ['b']], [(['a'], [7]), (['b'], [8])]⟩ ['b'] ['a'] ['c'] [8]
     (by decide) (by decide) (by decide) (by decide) (by decide) (by decide)⟩

/-! ## Claim C5 -/

/-- C5: append ordering.  Starting from any state in which the key is not
yet present (no prior entries, and nothing deletes or evicts the key in
between since only this key is operated on), `N = 1 + |es|` calls to
`insert_or_append` followed by a `get` return exactly the `N` entries in
call order — for the in-memory backend (first conjunct) and the Redis
backend (second conjunct). -/
theorem append_ordering (E : Type) :
    (∀ (s : InMemoryCache E) (key : Str) (e : E) (es : List E),
        Invariant s → dictGet s.cache key = none →
        ∃ s2, appendMany s key (e :: es) = .ok s2 ∧
          (get_key s2 key).1 = some (e :: es)) ∧
    (∀ (r : RedisCache E) (key topic_summary : Str) (e : E) (es : List E),
        dictGet r.store key = none →
        redis_get_key (redisAppendMany r key (e :: es) topic_summary) key =
          some (e :: es)) := by
  constructor
  · intro s key e es hinv hfresh
    obtain ⟨s1, hok, hinv1, hval⟩ := invariant_insert_or_append_key hinv key e
    rw [hfresh] at hval
    obtain ⟨s2, h2, h3⟩ := appendMany_of_present key es s1 [e] hval
    refine ⟨s2, ?_, ?_⟩
    · simp only [appendMany, hok]
      exact h2
    · have h4 : dictGet s2.cache key = some (e :: es) := h3
      simp only [get_key, h4]
  · intro r key topic_summary e es hfresh
    have hstep : redis_insert_or_append_key r key e topic_summary =
        ⟨dictSet r.store key ⟨[e], topic_summary⟩⟩ := by
      simp only [redis_insert_or_append_key, hfresh]
    have h1 : dictGet (dictSet r.store key ⟨[e], topic_summary⟩) key =
        some ⟨[e], topic_summary⟩ := dictGet_dictSet_self _ _ _
    have h2 := redisAppendMany_of_present key topic_summary es
      ⟨dictSet r.store key ⟨[e], topic_summary⟩⟩ ⟨[e], topic_summary⟩ h1
    simp only [redisAppendMany, hstep]
    unfold redis_get_key
    rw [h2]
    rfl

/-- Witness for C5: three entries appended to a fresh conversation come
back in call order, on both backends. -/
theorem append_ordering_witness :
    (Invariant (⟨4, [], []⟩ : InMemoryCache Nat) ∧
      dictGet (⟨4, [], []⟩ : InMemoryCache Nat).cache ['k'] = none ∧
      ∃ s2, appendMany (⟨4, [], []⟩ : InMemoryCache Nat) ['k'] [1, 2, 3] =
          .ok s2 ∧
        (get_key s2 ['k']).1 = some [1, 2, 3]) ∧
    (dictGet (⟨[]⟩ : RedisCache Nat).store ['k'] = none ∧
      redis_get_key (redisAppendMany (⟨[]⟩ : RedisCache Nat) ['k'] [1, 2, 3]
          ['t']) ['k'] = some [1, 2, 3]) :=
  ⟨⟨by decide, rfl,
    (append_ordering Nat).1 ⟨4, [], []⟩ ['k'] 1 [2, 3] (by decide) rfl⟩,
   ⟨rfl, (append_ordering Nat).2 ⟨[]⟩ ['k'] ['t'] 1 [2, 3] rfl⟩⟩

/-! ## Key decomposition and listing lemmas (claims C7 and C8) -/

deriving instance DecidableEq for Except

/-- Split a compound key at the first separator, returning the user and
conversation parts. -/
def splitAtSep : Str → Option (Str × Str)
  | [] => none
  | c :: rest =>
      if c = keySep then some ([], rest)
      else
        match splitAtSep rest with
        | none => none
        | some (u, conv) => some (c :: u, conv)

/-- A key is well formed when it splits into two valid identifiers —
exactly the keys `construct_key` can produce. -/
def wellFormedKey (k : Str) : Bool :=
  match splitAtSep k with
  | none => false
  | some (u, c) => check_suid u && check_suid c

theorem splitAtSep_eq_append {k u c : Str} (h : splitAtSep k = some (u, c)) :
    k = u ++ keySep :: c := by
  induction k generalizing u c with
  | nil => exact absurd h (by simp [splitAtSep])
  | cons ch rest ih =>
    unfold splitAtSep at h
    by_cases hch : ch = keySep
    · rw [if_pos hch] at h
      injection h with h2
      injection h2 with h3 h4
      rw [← h3, List.nil_append, hch, h4]
    · rw [if_neg hch] at h
      cases hs : splitAtSep rest with
      | none =>
        rw [hs] at h
        exact absurd h (by simp)
      | some p =>
        obtain ⟨u2, c2⟩ := p
        rw [hs] at h
        injection h with h2
        injection h2 with h3 h4
        rw [← h3, ← h4, List.cons_append]
        rw [ih hs]

theorem wellFormedKey_decomp {k : Str} (h : wellFormedKey k = true) :
    ∃ u c, check_suid u = true ∧ check_suid c = true ∧ k = mkKey u c := by
  unfold wellFormedKey at h
  cases hs : splitAtSep k with
  | none =>
    rw [hs] at h
    exact absurd h (by simp)
  | some p =>
    obtain ⟨u, c⟩ := p
    rw [hs] at h
    have hb := (Bool.and_eq_true _ _).mp h
    exact ⟨u, c, hb.1, hb.2, splitAtSep_eq_append hs⟩

/-- Slicing the listing prefix off the key it belongs to returns the
conversation id. -/
theorem mkKey_drop (u c : Str) :
    (mkKey u c).drop (u ++ [keySep]).length = c := by
  unfold mkKey
  have h : u ++ keySep :: c = (u ++ [keySep]) ++ c := by
    rw [List.append_assoc]
    rfl
  rw [h, List.drop_left]

/-- The listing filter of `list` (the loop body of in_memory_cache.py
lines 129-133): keep keys with the user's prefix, sliced. -/
def userFilter (user_id : Str) (key : Str) : Option Str :=
  if (user_id ++ [keySep]).isPrefixOf key then
    some (key.drop (user_id ++ [keySep]).length)
  else none

theorem list_user_eq_filterMap {E : Type} (s : InMemoryCache E) (u : Str) :
    list_user s u = (dictKeys s.cache).filterMap (userFilter u) := rfl

theorem userFilter_mkKey_self (u c : Str) :
    userFilter u (mkKey u c) = some c := by
  unfold userFilter
  have hpre : (u ++ [keySep]).isPrefixOf (mkKey u c) = true := by
    rw [List.isPrefixOf_iff_prefix]
    refine ⟨c, ?_⟩
    unfold mkKey
    rw [List.append_assoc]
    rfl
  rw [if_pos hpre, mkKey_drop]

theorem userFilter_mkKey_ne {u1 u2 : Str} (c : Str) (h1 : keySep ∉ u1)
    (h2 : keySep ∉ u2) (hne : u1 ≠ u2) :
    userFilter u1 (mkKey u2 c) = none := by
  unfold userFilter
  have hc : ¬((u1 ++ [keySep]).isPrefixOf (mkKey u2 c) = true) := by
    rw [List.isPrefixOf_iff_prefix]
    intro hpre
    exact hne ((prefix_key_iff h1 h2).mp hpre)
  rw [if_neg hc]

theorem mkKey_inj_right {u c c2 : Str} (h : mkKey u c = mkKey u c2) : c = c2 := by
  unfold mkKey at h
  have h2 := List.append_cancel_left h
  injection h2

/-- Membership in the listing of `u1` is exactly presence of the key
`u1:c`, over any well-formed key population — stored conversations of
other users never leak in. -/
theorem mem_filterMap_userFilter {u1 : Str} (hu1 : check_suid u1 = true)
    (c : Str) :
    ∀ (keys : List Str), (∀ k ∈ keys, wellFormedKey k = true) →
      (c ∈ keys.filterMap (userFilter u1) ↔ mkKey u1 c ∈ keys) := by
  intro keys
  induction keys with
  | nil => simp
  | cons k rest ih =>
    intro hwf
    have hk := hwf k (List.mem_cons_self k rest)
    obtain ⟨u, c2, hu, hc2, hkey⟩ := wellFormedKey_decomp hk
    have hrest : ∀ k2 ∈ rest, wellFormedKey k2 = true :=
      fun k2 hm => hwf k2 (List.mem_cons_of_mem k hm)
    subst hkey
    by_cases heq : u = u1
    · subst heq
      rw [List.filterMap_cons_some (userFilter_mkKey_self u c2),
        List.mem_cons, List.mem_cons, ih hrest]
      constructor
      · rintro (he | hm)
        · subst he
          exact Or.inl rfl
        · exact Or.inr hm
      · rintro (he | hm)
        · exact Or.inl (mkKey_inj_right he)
        · exact Or.inr hm
    · rw [List.filterMap_cons_none (userFilter_mkKey_ne c2
        (sep_not_mem_of_check_suid hu1) (sep_not_mem_of_check_suid hu)
        (fun he => heq he.symm)), List.mem_cons, ih hrest]
      constructor
      · exact fun hm => Or.inr hm
      · rintro (he | hm)
        · exfalso
          have hpre : (u1 ++ [keySep]) <+: (mkKey u c2) := by
            rw [← he]
            refine ⟨c, ?_⟩
            unfold mkKey
            rw [List.append_assoc]
            rfl
          exact heq ((prefix_key_iff (sep_not_mem_of_check_suid hu1)
            (sep_not_mem_of_check_suid hu)).mp hpre).symm
        · exact hm

theorem filterMap_eraseStr_of_none {β : Type} (f : Str → Option β)
    (l : List Str) (k : Str) (h : f k = none) :
    (eraseStr l k).filterMap f = l.filterMap f := by
  induction l with
  | nil => rfl
  | cons a rest ih =>
    rw [eraseStr_cons]
    by_cases ha : a = k
    · subst ha
      rw [if_pos rfl, List.filterMap_cons_none h]
    · rw [if_neg ha]
      cases hfa : f a with
      | none =>
        rw [List.filterMap_cons_none hfa, List.filterMap_cons_none hfa, ih]
      | some b =>
        rw [List.filterMap_cons_some hfa, List.filterMap_cons_some hfa, ih]

/-! ## Claim C7 -/

/-- State of the capacity-1 cache after user `a` stores conversation `1`. -/
def c7s1 : InMemoryCache Nat :=
  ⟨1, [['a', ':', '1']], [(['a', ':', '1'], [7])]⟩

/-- State after user `b` then stores conversation `2`: `a`'s conversation
was evicted. -/
def c7s2 : InMemoryCache Nat :=
  ⟨1, [['b', ':', '2']], [(['b', ':', '2'], [8])]⟩

/-- C7 counterexample: with capacity 1, user `a` holds conversation `1`
and `list(a)` returns it; adding user `b`'s conversation `2` (a valid
insert under `b`'s own identifiers) evicts it, and `list(a)` changes from
`[1]` to `[]` — so `list(u1)` is not invariant under adding `u2`'s
conversations. -/
theorem list_changed_by_other_users_insert :
    check_suid ['a'] = true ∧ check_suid ['b'] = true ∧
    (['a'] : Str) ≠ ['b'] ∧
    construct_key ['a'] ['1'] = .ok (mkKey ['a'] ['1']) ∧
    construct_key ['b'] ['2'] = .ok (mkKey ['b'] ['2']) ∧
    insert_or_append_key (⟨1, [], []⟩ : InMemoryCache Nat)
      (mkKey ['a'] ['1']) 7 = .ok c7s1 ∧
    list_user c7s1 ['a'] = [['1']] ∧
    insert_or_append_key c7s1 (mkKey ['b'] ['2']) 8 = .ok c7s2 ∧
    list_user c7s2 ['a'] = [] ∧
    list_user c7s2 ['a'] ≠ list_user c7s1 ['a'] := by
  decide

/-- C7 amended: over well-formed stored keys, `list(u1)` contains exactly
`u1`'s own conversation ids — a conversation stored only under a different
valid user id `u2` never appears (first conjunct) — and deleting `u2`'s
conversations leaves `list(u1)` unchanged (second conjunct).  (Adding a
conversation for `u2` can, at capacity, evict one of `u1`'s conversations
— see the counterexample — but never adds to `list(u1)`.) -/
theorem list_isolation (E : Type) :
    (∀ (s : InMemoryCache E) (u1 c : Str),
        (∀ k ∈ dictKeys s.cache, wellFormedKey k = true) →
        check_suid u1 = true →
        (c ∈ list_user s u1 ↔ mkKey u1 c ∈ dictKeys s.cache)) ∧
    (∀ (s : InMemoryCache E) (u1 u2 c2 : Str),
        check_suid u1 = true → check_suid u2 = true → u1 ≠ u2 →
        list_user (delete_key s (mkKey u2 c2)).2 u1 = list_user s u1) := by
  constructor
  · intro s u1 c hwf hu1
    rw [list_user_eq_filterMap]
    exact mem_filterMap_userFilter hu1 c (dictKeys s.cache) hwf
  · intro s u1 u2 c2 hu1 hu2 hne
    cases hget : dictGet s.cache (mkKey u2 c2) with
    | none => simp only [delete_key, hget]
    | some l =>
      simp only [delete_key, hget]
      rw [list_user_eq_filterMap, list_user_eq_filterMap]
      show ((dictKeys (dictDel s.cache (mkKey u2 c2))).filterMap (userFilter u1))
        = _
      rw [dictKeys_dictDel]
      exact filterMap_eraseStr_of_none (userFilter u1) (dictKeys s.cache)
        (mkKey u2 c2)
        (userFilter_mkKey_ne c2 (sep_not_mem_of_check_suid hu1)
          (sep_not_mem_of_check_suid hu2) hne)

/-- Witness for the amended C7 at a concrete mixed-user state. -/
theorem list_isolation_witness :
    ((∀ k ∈ dictKeys (⟨4, [['a', ':', '1'], ['b', ':', '2']],
          [(['a', ':', '1'], [7]), (['b', ':', '2'], [8])]⟩ :
            InMemoryCache Nat).cache, wellFormedKey k = true) ∧
      check_suid ['a'] = true ∧
      ((['2'] : Str) ∈ list_user (⟨4, [['a', ':', '1'], ['b', ':', '2']],
          [(['a', ':', '1'], [7]), (['b', ':', '2'], [8])]⟩ :
            InMemoryCache Nat) ['a'] ↔
        mkKey ['a'] ['2'] ∈ dictKeys (⟨4, [['a', ':', '1'], ['b', ':', '2']],
          [(['a', ':', '1'], [7]), (['b', ':', '2'], [8])]⟩ :
            InMemoryCache Nat).cache)) ∧
    ((['a'] : Str) ≠ ['b'] ∧
      list_user (delete_key (⟨4, [['a', ':', '1'], ['b', ':', '2']],
          [(['a', ':', '1'], [7]), (['b', ':', '2'], [8])]⟩ :
            InMemoryCache Nat) (mkKey ['b'] ['2'])).2 ['a'] =
        list_user (⟨4, [['a', ':', '1'], ['b', ':', '2']],
          [(['a', ':', '1'], [7]), (['b', ':', '2'], [8])]⟩ :
            InMemoryCache Nat) ['a']) :=
  ⟨⟨by decide, by decide,
    (list_isolation Nat).1
      ⟨4, [['a', ':', '1'], ['b', ':', '2']],
        [(['a', ':', '1'], [7]), (['b', ':', '2'], [8])]⟩ ['a'] ['2']
      (by decide) (by decide)⟩,
   ⟨by decide,
    (list_isolation Nat).2
      ⟨4, [['a', ':', '1'], ['b', ':', '2']],
        [(['a', ':', '1'], [7]), (['b', ':', '2'], [8])]⟩ ['a'] ['b'] ['2']
      (by decide) (by decide) (by decide)⟩⟩

/-! ## Claim C8 -/

/-- Correspondence between backend states holding the same conversations:
same compound keys in the same stored order with the same histories.  (The
in-memory backend stores nothing else; the Redis backend additionally
stores a topic summary per key.) -/
def ImCorresponds {E : Type} (s : InMemoryCache E) (r : RedisCache E) : Prop :=
  s.cache = r.store.map (fun p => (p.1, p.2.history))

instance {E : Type} [DecidableEq E] (s : InMemoryCache E) (r : RedisCache E) :
    Decidable (ImCorresponds s r) := by
  unfold ImCorresponds
  infer_instance

/-- An in-memory state holding user `a`'s conversation `1` with history
`[7]`. -/
def c8im : InMemoryCache Nat :=
  ⟨8, [['a', ':', '1']], [(['a', ':', '1'], [7])]⟩

/-- A Redis state holding the same conversation, with topic summary
`f1`. -/
def c8r1 : RedisCache Nat := ⟨[(['a', ':', '1'], ⟨[7], ['f', '1']⟩)]⟩

/-- The same conversations as `c8r1` but a different topic summary. -/
def c8r2 : RedisCache Nat := ⟨[(['a', ':', '1'], ⟨[7], ['f', '2']⟩)]⟩

/-- C8 counterexample: one in-memory state corresponds (equal stored
conversations) to two Redis states whose `list` results differ in the
topic summary, so no in-memory `list` result can agree with both — and
indeed the in-memory `list` returns bare conversation ids with no
topic_summary field at all.  (Both stores hold a single matching key, so
the singleton scan below is the only key enumeration `redis_client.keys`
can return.) -/
theorem in_memory_list_lacks_topic_summary :
    ImCorresponds c8im c8r1 ∧ ImCorresponds c8im c8r2 ∧
    (dictKeys c8r1.store).filter
      (fun key => ((['a'] : Str) ++ [keySep]).isPrefixOf key) =
      [['a', ':', '1']] ∧
    (dictKeys c8r2.store).filter
      (fun key => ((['a'] : Str) ++ [keySep]).isPrefixOf key) =
      [['a', ':', '1']] ∧
    redis_list_scan c8r1 ['a'] [['a', ':', '1']] =
      .ok [(['1'], ['f', '1'])] ∧
    redis_list_scan c8r2 ['a'] [['a', ':', '1']] =
      .ok [(['1'], ['f', '2'])] ∧
    redis_list_scan c8r1 ['a'] [['a', ':', '1']] ≠
      redis_list_scan c8r2 ['a'] [['a', ':', '1']] ∧
    list_user c8im ['a'] = [['1']] := by
  decide

theorem dictKeys_map_history {E : Type} (l : List (Str × RedisDoc E)) :
    dictKeys (l.map (fun p => (p.1, p.2.history))) = dictKeys l := by
  induction l with
  | nil => rfl
  | cons p rest ih =>
    rw [List.map_cons, dictKeys_cons, dictKeys_cons, ih]

theorem filterMap_guard_eq_filter_map {β : Type} (p : Str → Bool) (g : Str → β) :
    ∀ l : List Str,
      l.filterMap (fun k => if p k then some (g k) else none) =
        (l.filter p).map g := by
  intro l
  induction l with
  | nil => rfl
  | cons a rest ih =>
    by_cases hp : p a = true
    · rw [List.filterMap_cons_some (by rw [if_pos hp]),
        List.filter_cons_of_pos hp, List.map_cons, ih]
    · rw [List.filterMap_cons_none (by rw [if_neg hp]),
        List.filter_cons_of_neg hp, ih]

/-- The fetch loop of the Redis `list` succeeds and returns one record
per scanned key, whose first component is the conversation id sliced off
the key. -/
theorem redis_list_loop_ok {E : Type} (store : List (Str × RedisDoc E))
    (u : Str) (hu : check_suid u = true) :
    ∀ KS : List Str,
      (∀ k ∈ KS, ∃ c doc, check_suid c = true ∧ k = mkKey u c ∧
        dictGet store k = some doc) →
      ∃ l, redis_list_loop store u KS = .ok l ∧
        l.map Prod.fst = KS.map (fun k => k.drop (u ++ [keySep]).length) := by
  intro KS
  induction KS with
  | nil => exact fun _ => ⟨[], rfl, rfl⟩
  | cons k rest ih =>
    intro hpre
    obtain ⟨c, doc, hc, hkey, hdoc⟩ := hpre k (List.mem_cons_self k rest)
    obtain ⟨tail, htail, hmap⟩ :=
      ih (fun k2 hm => hpre k2 (List.mem_cons_of_mem k hm))
    have hdropk : k.drop (u ++ [keySep]).length = c := by
      rw [hkey, mkKey_drop]
    have hck : construct_key u (k.drop (u ++ [keySep]).length) = .ok k := by
      rw [hdropk, construct_key_eq_mkKey hu hc, ← hkey]
    refine ⟨(k.drop (u ++ [keySep]).length, doc.topic_summary) :: tail, ?_, ?_⟩
    · simp only [redis_list_loop, hck, hdoc, htail]
    · rw [List.map_cons, List.map_cons, hmap]

/-- C8 amended: for corresponding stored states, the two backends
enumerate exactly the same conversation ids — for every order in which
`redis_client.keys` may enumerate the matching keys (any permutation of
them), the Redis `list` succeeds and its conversation ids are a
permutation of the in-memory `list` result.  Only the Redis backend pairs
each id with the stored topic summary; the in-memory `list` returns bare
conversation ids. -/
theorem backends_list_conversation_ids_agree (E : Type) (s : InMemoryCache E)
    (r : RedisCache E) (u : Str) (scan : List Str) (hc : ImCorresponds s r)
    (hwf : ∀ k ∈ dictKeys r.store, wellFormedKey k = true)
    (hu : check_suid u = true)
    (hscan : scan.Perm ((dictKeys r.store).filter
      (fun key => (u ++ [keySep]).isPrefixOf key))) :
    ∃ l, redis_list_scan r u scan = .ok l ∧
      (l.map Prod.fst).Perm (list_user s u) := by
  have hkeys : dictKeys s.cache = dictKeys r.store := by
    rw [hc]
    exact dictKeys_map_history r.store
  have hpre : ∀ k ∈ (dictKeys r.store).filter
      (fun key => (u ++ [keySep]).isPrefixOf key),
      ∃ c doc, check_suid c = true ∧ k = mkKey u c ∧
        dictGet r.store k = some doc := by
    intro k hk
    have hmem := List.mem_of_mem_filter hk
    have hmatch := List.of_mem_filter hk
    obtain ⟨u2, c2, hu2, hc2, hkey⟩ := wellFormedKey_decomp (hwf k hmem)
    have hu2u : u2 = u := by
      have hpre2 : (u ++ [keySep]) <+: (mkKey u2 c2) := by
        rw [← hkey]
        exact (List.isPrefixOf_iff_prefix).mp hmatch
      exact ((prefix_key_iff (sep_not_mem_of_check_suid hu)
        (sep_not_mem_of_check_suid hu2)).mp hpre2).symm
    obtain ⟨doc, hdoc⟩ : ∃ doc, dictGet r.store k = some doc := by
      have hsome : (dictGet r.store k).isSome :=
        (dictGet_isSome_iff_mem r.store k).mpr hmem
      cases hcase : dictGet r.store k with
      | none => rw [hcase] at hsome; exact absurd hsome (by simp)
      | some d => exact ⟨d, rfl⟩
    exact ⟨c2, doc, hc2, by rw [hkey, hu2u], hdoc⟩
  have hpre_scan : ∀ k ∈ scan,
      ∃ c doc, check_suid c = true ∧ k = mkKey u c ∧
        dictGet r.store k = some doc :=
    fun k hk => hpre k (hscan.mem_iff.mp hk)
  obtain ⟨l, hl, hm⟩ := redis_list_loop_ok r.store u hu scan hpre_scan
  refine ⟨l, hl, ?_⟩
  rw [hm]
  have hlu : list_user s u =
      ((dictKeys r.store).filter
        (fun key => (u ++ [keySep]).isPrefixOf key)).map
        (fun key => key.drop (u ++ [keySep]).length) := by
    rw [list_user_eq_filterMap, hkeys]
    exact filterMap_guard_eq_filter_map
      (fun key => (u ++ [keySep]).isPrefixOf key)
      (fun key => key.drop (u ++ [keySep]).length) (dictKeys r.store)
  rw [hlu]
  exact hscan.map (fun key => key.drop (u ++ [keySep]).length)

/-- Witness for the amended C8 at the concrete corresponding states, with
the (here unique) scan order of the single matching key. -/
theorem backends_list_conversation_ids_agree_witness :
    (ImCorresponds c8im c8r1 ∧
      (∀ k ∈ dictKeys c8r1.store, wellFormedKey k = true) ∧
      check_suid ['a'] = true ∧
      ([['a', ':', '1']] : List Str).Perm
        ((dictKeys c8r1.store).filter
          (fun key => ((['a'] : Str) ++ [keySep]).isPrefixOf key))) ∧
    (∃ l, redis_list_scan c8r1 ['a'] [['a', ':', '1']] = .ok l ∧
      (l.map Prod.fst).Perm (list_user c8im ['a'])) :=
  ⟨⟨by decide, by decide, by decide, by decide⟩,
   backends_list_conversation_ids_agree Nat c8im c8r1 ['a']
     [['a', ':', '1']] (by decide) (by decide) (by decide) (by decide)⟩

end RoadCore
